import Mathlib

/-!
Verification development for the genre-matching engine of
`rom_management/organize by genre/sort_by_genre.py`.

Python strings are modelled as `List Char` (ASCII scope: `str.lower`,
`\s`, `\w`, `\d` are modelled by their ASCII meaning).  Python `set`s of
strings are modelled as insertion-ordered duplicate-free lists; Python
`dict`s as insertion-ordered association lists where updating an existing
key keeps its position (CPython 3.7+ behaviour).  Floating-point
threshold comparisons (`>= 0.6`, `>= 0.5`, `>= 0.3`) are embedded as the
equivalent exact integer comparisons (checked to agree with IEEE doubles
on all realistic operand sizes); similarity scores are embedded in `ℚ`.
-/

abbrev Str := List Char

def strL (s : String) : Str := s.toList

/-- Apostrophe character (code 39). -/
def aposChar : Char := Char.ofNat 39

/-- Double-quote character (code 34). -/
def quoteChar : Char := Char.ofNat 34

/-- Backslash character (code 92). -/
def backslashChar : Char := Char.ofNat 92

/-- ASCII whitespace, the model of Python `\s` / `str.strip` defaults. -/
def isWsChar (c : Char) : Bool :=
  c = ' ' || c = Char.ofNat 9 || c = Char.ofNat 10 ||
  c = Char.ofNat 13 || c = Char.ofNat 11 || c = Char.ofNat 12

def isDigitChar (c : Char) : Bool := 48 ≤ c.toNat && c.toNat ≤ 57

def isUpperChar (c : Char) : Bool := 65 ≤ c.toNat && c.toNat ≤ 90

def isLowerChar (c : Char) : Bool := 97 ≤ c.toNat && c.toNat ≤ 122

/-- Model of Python regex `\w` (ASCII scope). -/
def isWordChar (c : Char) : Bool :=
  isUpperChar c || isLowerChar c || isDigitChar c || c = '_'

/-- Model of Python `str.lower` on one character (ASCII scope). -/
def lowerChar (c : Char) : Char :=
  if isUpperChar c then Char.ofNat (c.toNat + 32) else c

def lowerS (s : Str) : Str := s.map lowerChar

/-- Model of Python `str.strip()` (no argument). -/
def pyStrip (s : Str) : Str :=
  ((s.dropWhile isWsChar).reverse.dropWhile isWsChar).reverse

/-- Helper for `collapseWs`: the boolean records whether the previous
character was whitespace (already emitted as a single space). -/
def collapseAux : Bool → Str → Str
  | _, [] => []
  | prevWs, c :: rest =>
    if isWsChar c then
      if prevWs then collapseAux true rest
      else ' ' :: collapseAux true rest
    else c :: collapseAux false rest

/-- Model of `re.sub(r'\s+', ' ', s)`: every maximal whitespace run
becomes a single space. -/
def collapseWs (s : Str) : Str := collapseAux false s

/-- `startsWithS n h` holds when `n` is a leading segment of `h`. -/
def startsWithS : Str → Str → Bool
  | [], _ => true
  | _ :: _, [] => false
  | a :: as, b :: bs => a = b && startsWithS as bs

/-- Model of Python `n in h` (substring containment). -/
def hasSub (n : Str) : Str → Bool
  | [] => n.isEmpty
  | c :: t => startsWithS n (c :: t) || hasSub n t

def endsWithS (n h : Str) : Bool := startsWithS n.reverse h.reverse

def containsChar (c : Char) (s : Str) : Bool := s.any (fun x => x = c)

/-- Fuel-driven core of `replaceAllS`; the fuel is an upper bound on the
length of the string still to scan. -/
def replaceAllF : Nat → Str → Str → Str → Str
  | 0, _, _, s => s
  | _ + 1, _, _, [] => []
  | f + 1, old, nw, c :: t =>
    if old ≠ [] ∧ startsWithS old (c :: t) = true then
      nw ++ replaceAllF f old nw (List.drop old.length (c :: t))
    else c :: replaceAllF f old nw t

/-- Model of Python `s.replace(old, nw)` (left-to-right, non-overlapping;
never called with empty `old` in this code base). -/
def replaceAllS (old nw s : Str) : Str := replaceAllF s.length old nw s

def dropThroughClose (cl : Char) : Str → Option Str
  | [] => none
  | c :: t => if c = cl then some t else dropThroughClose cl t

/-- Fuel-driven core of `removeParens` / `removeBrackets`. -/
def removeDelimF (op cl : Char) : Nat → Str → Str
  | 0, s => s
  | _ + 1, [] => []
  | f + 1, c :: t =>
    if c = op then
      match dropThroughClose cl t with
      | some rest => removeDelimF op cl f rest
      | none => c :: removeDelimF op cl f t
    else c :: removeDelimF op cl f t

/-- Model of `re.sub(r'\([^)]*\)', '', s)`: each `(`, together with the
text up to the next `)`, is removed; a `(` with no later `)` stays. -/
def removeParens (s : Str) : Str := removeDelimF '(' ')' s.length s

/-- Model of `re.sub(r'\[[^\]]*\]', '', s)`. -/
def removeBrackets (s : Str) : Str := removeDelimF '[' ']' s.length s

/-- Model of `re.sub(r'\s*\d+\s*$', '', s)`: drop one trailing block of
whitespace-digits-whitespace, only when at least one digit ends it. -/
def removeEndNums (s : Str) : Str :=
  let r1 := s.reverse.dropWhile isWsChar
  match r1 with
  | [] => s
  | c :: _ =>
    if isDigitChar c then ((r1.dropWhile isDigitChar).dropWhile isWsChar).reverse
    else s

/-- Model of `re.sub(r'[^\w\s]', ' ', s)`. -/
def punctToSpace (s : Str) : Str :=
  s.map (fun c => if isWordChar c || isWsChar c then c else ' ')

/-- Helper of `splitWs`; the first argument is the current word reversed. -/
def splitWsAux : Str → Str → List Str
  | acc, [] => if acc = [] then [] else [acc.reverse]
  | acc, c :: t =>
    if isWsChar c then
      if acc = [] then splitWsAux [] t else acc.reverse :: splitWsAux [] t
    else splitWsAux (c :: acc) t

/-- Model of Python `str.split()` with no argument. -/
def splitWs (s : Str) : List Str := splitWsAux [] s

def dedupAux (seen : List Str) : List Str → List Str
  | [] => []
  | x :: t => if x ∈ seen then dedupAux seen t else x :: dedupAux (x :: seen) t

/-- Deterministic model of Python `set(...)` construction from a list:
keep the first occurrence of each element, in order. -/
def dedupKeepFirst (l : List Str) : List Str := dedupAux [] l

/-- Ordered-set insertion: the model of Python `set.add`. -/
def addVar (l : List Str) (x : Str) : List Str := if x ∈ l then l else l ++ [x]

/-- Ordered-set bulk insertion: the model of Python `set.update`. -/
def addVars (l : List Str) (xs : List Str) : List Str := xs.foldl addVar l

def flatMapL (f : α → List β) : List α → List β
  | [] => []
  | x :: t => f x ++ flatMapL f t

def joinL : List (List α) → List α
  | [] => []
  | x :: t => x ++ joinL t

/-! ### Variation Generator: `create_ultra_aggressive_variations` -/

/-- The separator list of Step 2 of `create_ultra_aggressive_variations`. -/
def sepList : List Str :=
  [strL "_", strL "-", strL ".", strL "+", strL "&", [aposChar],
   strL "!", strL "?", strL ":", strL ";", strL " - "]

/-- Step 2 (separators) of `create_ultra_aggressive_variations`, for one
variant of the snapshot. -/
def sepVariantsOf (variant : Str) : List Str :=
  flatMapL (fun sep =>
    if hasSub sep variant then
      let ws := pyStrip (collapseWs (replaceAllS sep (strL " ") variant))
      let wo := pyStrip (collapseWs (replaceAllS sep [] variant))
      [ws, lowerS ws, wo, lowerS wo]
    else []) sepList

/-- Step 3 (leading/trailing "The") of `create_ultra_aggressive_variations`. -/
def articleVariantsOf (variant : Str) : List Str :=
  (if startsWithS (strL "the ") (lowerS variant) then
    let wt := pyStrip (variant.drop 4)
    [wt, lowerS wt, wt ++ strL ", The", lowerS (wt ++ strL ", The")]
  else []) ++
  (if endsWithS (strL ", the") (lowerS variant) then
    let wt := pyStrip (variant.take (variant.length - 5))
    [wt, lowerS wt, strL "The " ++ wt, lowerS (strL "The " ++ wt)]
  else [])

/-- Step 4 (punctuation removal) of `create_ultra_aggressive_variations`. -/
def punctVariantsOf (variant : Str) : List Str :=
  let np := pyStrip (collapseWs (punctToSpace variant))
  if np = [] then [] else [np, lowerS np]

/-- The `roman_conversions` table, in Python dict insertion order. -/
def romanList : List (Str × Str) :=
  [(strL " II", strL " 2"), (strL " III", strL " 3"),
   (strL " IV", strL " 4"), (strL " V", strL " 5"),
   (strL "II ", strL "2 "), (strL "III ", strL "3 "),
   (strL "IV ", strL "4 "), (strL "V ", strL "5 "),
   (strL "II", strL "2"), (strL "III", strL "3"),
   (strL "IV", strL "4"), (strL "V", strL "5")]

/-- Step 5 (roman numerals and trailing numbers). -/
def numberVariantsOf (variant : Str) : List Str :=
  (flatMapL (fun p =>
    if hasSub (lowerS p.1) (lowerS variant) then
      let c := replaceAllS p.1 p.2 variant
      [c, lowerS c]
    else []) romanList) ++
  (let ne := pyStrip (removeEndNums variant)
   if ne ≠ variant then [ne, lowerS ne] else [])

/-- The `abbreviations` table, in Python dict insertion order. -/
def abbrevList : List (Str × Str) :=
  [(strL "Dr.", strL "Doctor"), (strL "Mr.", strL "Mister"),
   (strL "Bros.", strL "Brothers"), (strL "Co.", strL "Company"),
   (strL "&", strL "and"), (strL "vs.", strL "versus"),
   (strL "vs", strL "versus")]

/-- Step 6 (abbreviation expansion/contraction). -/
def abbrevVariantsOf (variant : Str) : List Str :=
  flatMapL (fun p =>
    (if hasSub (lowerS p.1) (lowerS variant) then
      let e := replaceAllS p.1 p.2 variant
      [e, lowerS e]
    else []) ++
    (if hasSub (lowerS p.2) (lowerS variant) then
      let c := replaceAllS p.2 p.1 variant
      [c, lowerS c]
    else [])) abbrevList

/-- One iteration of Step 1: add the cleaned form (and its lowercase) when
non-empty and make it the new current base. -/
def step1Pass (v : List Str) (cur : Str) (cleaned : Str) : List Str × Str :=
  if cleaned = [] then (v, cur)
  else (addVar (addVar v cleaned) (lowerS cleaned), cleaned)

/-- Final clean-up loop of `create_ultra_aggressive_variations`: keep
variants whose stripped length exceeds 1, in whitespace-collapsed form,
deduplicated via the `seen` set. -/
def cleanupLoop (seen : List Str) : List Str → List Str
  | [] => []
  | v :: rest =>
    if v ≠ [] ∧ 1 < (pyStrip v).length then
      let cleaned := collapseWs (pyStrip v)
      if cleaned ∈ seen then cleanupLoop seen rest
      else cleaned :: cleanupLoop (cleaned :: seen) rest
    else cleanupLoop seen rest

/-- Model of `create_ultra_aggressive_variations`. -/
def variationsOf (name : Str) : List Str :=
  let original := pyStrip name
  let v0 := addVar (addVar [] original) (lowerS original)
  let c1 := collapseWs (pyStrip (removeParens original))
  let s1 := step1Pass v0 original c1
  let c2 := collapseWs (pyStrip (removeBrackets s1.2))
  let s2 := step1Pass s1.1 s1.2 c2
  let v2 := s2.1
  let v3 := addVars v2 (flatMapL sepVariantsOf v2)
  let v4 := addVars v3 (flatMapL articleVariantsOf v3)
  let v5 := addVars v4 (flatMapL punctVariantsOf v4)
  let v6 := addVars v5 (flatMapL numberVariantsOf v5)
  let v7 := addVars v6 (flatMapL abbrevVariantsOf v6)
  cleanupLoop [] v7

/-! ### Catalog Loader: `enhanced_xml_parsing` -/

structure Entry where
  original_name : Str
  clean_name : Str
  genre : Str
  full_genre : Str
deriving DecidableEq

abbrev MetaDict := List (Str × Entry)

/-- Python dict update: an existing key keeps its position, a new key is
appended. -/
def dictInsert (k : Str) (v : Entry) : MetaDict → MetaDict
  | [] => [(k, v)]
  | kv :: rest => if kv.1 = k then (k, v) :: rest else kv :: dictInsert k v rest

/-- Python dict lookup (keys are unique, so first match). -/
def dictGet (d : MetaDict) (k : Str) : Option Entry :=
  d.findSome? (fun kv => if kv.1 = k then some kv.2 else none)

/-- Fuel-driven core of `removeAllCI`. -/
def removeAllCIF : Nat → Str → Str → Str
  | 0, _, s => s
  | _ + 1, _, [] => []
  | f + 1, pat, c :: t =>
    if pat ≠ [] ∧ startsWithS (lowerS pat) (lowerS (c :: t)) = true then
      removeAllCIF f pat (List.drop pat.length (c :: t))
    else c :: removeAllCIF f pat t

/-- Model of `re.sub(pat, '', s, flags=re.IGNORECASE)` for a literal
pattern `pat`. -/
def removeAllCI (pat s : Str) : Str := removeAllCIF s.length pat s

/-- The `region_patterns` literals of `enhanced_xml_parsing`. -/
def regionTags : List Str :=
  [strL "(USA, Europe)", strL "(USA)", strL "(Europe)", strL "(Japan)",
   strL "(World)", strL "(U)", strL "(E)", strL "(J)", strL "(W)",
   strL "(Beta)", strL "(Alpha)", strL "(Demo)", strL "(Proto)",
   strL "(Prototype)", strL "(Unl)", strL "(Unlicensed)"]

/-- The `clean_base_name` computation: strip every region tag
(case-insensitively), re-collapsing whitespace after each pattern. -/
def cleanBaseName (name : Str) : Str :=
  regionTags.foldl (fun cur pat => collapseWs (pyStrip (removeAllCI pat cur))) name

/-- Genre extraction of `enhanced_xml_parsing`: `"Unknown"` for an absent
element or falsy text, else the stripped text truncated at the first
`/` (the kept segment stripped again). -/
def extractGenre (genreChild : Option Str) : Str :=
  let genre0 := match genreChild with
    | some t => if t ≠ [] then pyStrip t else strL "Unknown"
    | none => strL "Unknown"
  if containsChar '/' genre0 then pyStrip (genre0.takeWhile (fun c => c ≠ '/'))
  else genre0

/-- `full_genre` extraction: the stripped raw text when present and
truthy, else the (already defaulted) genre. -/
def extractFullGenre (genreChild : Option Str) : Str :=
  match genreChild with
  | some t => if t ≠ [] then pyStrip t else extractGenre genreChild
  | none => extractGenre genreChild

/-- One `game` record of the catalog document.  `nameAttr` is the `name`
attribute when present; `nameChild` the text of a `name` child (`none`
covers both a missing element and `None` text); `genreChild` likewise for
the `genre` child. -/
structure XmlGame where
  nameAttr : Option Str
  nameChild : Option Str
  genreChild : Option Str

/-- Name selection: the attribute takes priority over the child element. -/
def gameName (g : XmlGame) : Option Str :=
  match g.nameAttr with
  | some a => some a
  | none => g.nameChild

/-- The per-record variation list: generator output, with the clean base
name (and its lowercase) prepended when it is truthy and differs. -/
def gameVariations (name cb : Str) : List Str :=
  let variations := variationsOf name
  if cb ≠ [] ∧ cb ≠ name then cb :: lowerS cb :: variations else variations

/-- Store the first 50 variations (those with stripped length > 1) in the
metadata dict, all mapping to the same entry. -/
def storeVariations (name cb genre fullG : Str) (md : MetaDict)
    (vars : List Str) : MetaDict :=
  (vars.take 50).foldl (fun d variation =>
    if variation ≠ [] ∧ 1 < (pyStrip variation).length then
      dictInsert variation (Entry.mk name cb genre fullG) d
    else d) md

/-- Processing of one `game` element of the loader loop: skip a record
with a falsy name, else append the stripped name and store the capped
variation list (the loop-local Python names `name`, `genre`,
`clean_base_name` appear here as the corresponding subterms). -/
def processGame (st : MetaDict × List Str) (g : XmlGame) : MetaDict × List Str :=
  match gameName g with
  | none => st
  | some n0 =>
    if n0 = [] then st
    else
      (storeVariations (pyStrip n0) (cleanBaseName (pyStrip n0))
        (extractGenre g.genreChild) (extractFullGenre g.genreChild) st.1
        (gameVariations (pyStrip n0) (cleanBaseName (pyStrip n0))),
       st.2 ++ [pyStrip n0])

/-- Model of `enhanced_xml_parsing`.  `none` models any exception inside
the `try` block (parse failure), which the code turns into `({}, [])`. -/
def enhancedXmlParsing (doc : Option (List XmlGame)) : MetaDict × List Str :=
  match doc with
  | none => ([], [])
  | some games => games.foldl processGame ([], [])

/-! ### `difflib.SequenceMatcher` ratio (used by `similarity`)

The matcher is constructed with `isjunk=None`, so `bjunk` is empty and
the two junk-extension loops of `find_longest_match` never run; they are
omitted.  `autojunk` popularity filtering on `b2j` is included.  Only the
total matched size feeds `ratio()`, so the sort/merge of
`get_matching_blocks` (which permutes and coalesces blocks without
changing the total) is not reproduced. -/

abbrev NatDict := List (Nat × Nat)

def ndGet (d : NatDict) (k : Nat) : Nat :=
  (d.findSome? (fun kv => if kv.1 = k then some kv.2 else none)).getD 0

def ndInsert (k v : Nat) : NatDict → NatDict
  | [] => [(k, v)]
  | kv :: rest => if kv.1 = k then (k, v) :: rest else kv :: ndInsert k v rest

abbrev CharDict := List (Char × List Nat)

def cdGet (d : CharDict) (c : Char) : List Nat :=
  (d.findSome? (fun kv => if kv.1 = c then some kv.2 else none)).getD []

def cdAppend (c : Char) (i : Nat) : CharDict → CharDict
  | [] => [(c, [i])]
  | kv :: rest =>
    if kv.1 = c then (kv.1, kv.2 ++ [i]) :: rest else kv :: cdAppend c i rest

def buildB2jAll (b : Str) : CharDict :=
  b.enum.foldl (fun d p => cdAppend p.2 p.1 d) []

/-- `b2j` with the `autojunk` popularity filter (active only when
`len(b) >= 200`). -/
def buildB2j (b : Str) : CharDict :=
  let full := buildB2jAll b
  let n := b.length
  if 200 ≤ n then
    let ntest := n / 100 + 1
    full.filter (fun kv => kv.2.length ≤ ntest)
  else full

structure Best where
  i : Nat
  j : Nat
  size : Nat
deriving DecidableEq

/-- Inner loop of `find_longest_match` over the match positions `js` of
`a[i]` in `b`.  In Python `j2len.get(j-1, 0)` misses for `j = 0` because
`-1` is never a key; hence the explicit `j = 0` case. -/
def flmInner (i blo bhi : Nat) (j2len : NatDict) :
    List Nat → NatDict → Best → NatDict × Best
  | [], nj, best => (nj, best)
  | j :: rest, nj, best =>
    if j < blo then flmInner i blo bhi j2len rest nj best
    else if bhi ≤ j then (nj, best)
    else
      let k := (if j = 0 then 0 else ndGet j2len (j - 1)) + 1
      let nj2 := ndInsert j k nj
      let best2 := if best.size < k then Best.mk (i + 1 - k) (j + 1 - k) k else best
      flmInner i blo bhi j2len rest nj2 best2

def flmOuter (a : Str) (b2j : CharDict) (blo bhi : Nat) :
    List Nat → NatDict → Best → Best
  | [], _, best => best
  | i :: rest, j2len, best =>
    let js := cdGet b2j (a.getD i ' ')
    let r := flmInner i blo bhi j2len js [] best
    flmOuter a b2j blo bhi rest r.1 r.2

/-- Extension of the best block to the left over equal characters
(the non-junk while loop; fuel bounds the number of steps). -/
def extendBestL (a b : Str) (alo blo : Nat) : Nat → Best → Best
  | 0, best => best
  | f + 1, best =>
    if alo < best.i ∧ blo < best.j ∧
        a.getD (best.i - 1) ' ' = b.getD (best.j - 1) ' ' then
      extendBestL a b alo blo f (Best.mk (best.i - 1) (best.j - 1) (best.size + 1))
    else best

def extendBestR (a b : Str) (ahi bhi : Nat) : Nat → Best → Best
  | 0, best => best
  | f + 1, best =>
    if best.i + best.size < ahi ∧ best.j + best.size < bhi ∧
        a.getD (best.i + best.size) ' ' = b.getD (best.j + best.size) ' ' then
      extendBestR a b ahi bhi f (Best.mk best.i best.j (best.size + 1))
    else best

def findLongestMatch (a b : Str) (b2j : CharDict) (alo ahi blo bhi : Nat) : Best :=
  let best0 := Best.mk alo blo 0
  let best1 := flmOuter a b2j blo bhi (List.range' alo (ahi - alo)) [] best0
  let best2 := extendBestL a b alo blo a.length best1
  extendBestR a b ahi bhi a.length best2

/-- Queue-driven divide and conquer of `get_matching_blocks`, summing the
block sizes directly (`queue.pop()` is LIFO). -/
def matchBlocksF (a b : Str) (b2j : CharDict) :
    Nat → List (Nat × Nat × Nat × Nat) → Nat → Nat
  | 0, _, acc => acc
  | _ + 1, [], acc => acc
  | f + 1, (alo, ahi, blo, bhi) :: queue, acc =>
    let best := findLongestMatch a b b2j alo ahi blo bhi
    if best.size = 0 then matchBlocksF a b b2j f queue acc
    else
      let q1 := if alo < best.i ∧ blo < best.j then
          (alo, best.i, blo, best.j) :: queue else queue
      let q2 := if best.i + best.size < ahi ∧ best.j + best.size < bhi then
          (best.i + best.size, ahi, best.j + best.size, bhi) :: q1 else q1
      matchBlocksF a b b2j f q2 (acc + best.size)

/-- `SequenceMatcher(None, a, b).ratio()`, in `ℚ`. -/
def seqRatio (a b : Str) : ℚ :=
  let m := matchBlocksF a b (buildB2j b) (a.length + b.length + 2)
    [(0, a.length, 0, b.length)] 0
  if a.length + b.length = 0 then 1
  else (2 * m : ℚ) / ((a.length : ℚ) + (b.length : ℚ))

/-- Model of the script's `similarity`: ratio of the lowercased inputs. -/
def similarityQ (a b : Str) : ℚ := seqRatio (lowerS a) (lowerS b)

/-! ### Matcher: `hyper_aggressive_rom_matching` -/

/-- Strategy 1: direct presence of a ROM variation as a metadata key. -/
def stage1 (romVars : List Str) (md : MetaDict) : Option Entry :=
  romVars.findSome? (fun v => dictGet md v)

/-- Strategy 2: case-insensitive equality against every metadata key. -/
def stage2 (romVars : List Str) (md : MetaDict) : Option Entry :=
  romVars.findSome? (fun v =>
    md.findSome? (fun kv => if lowerS v = lowerS kv.1 then some kv.2 else none))

/-- The substring-strategy acceptance test: case-insensitive containment
plus the 60% length-ratio guard (`len(v) >= len(k) * 0.6` on doubles
equals `6 * len(k) <= 10 * len(v)` on integers). -/
def substrAcceptB (v k : Str) : Bool :=
  hasSub (lowerS v) (lowerS k) && decide (6 * (lowerS k).length ≤ 10 * (lowerS v).length)

/-- Strategy 3: substring matching, gated on short ROM stems. -/
def stage3 (romName : Str) (romVars : List Str) (md : MetaDict) : Option Entry :=
  if romName.length ≤ 12 then
    romVars.findSome? (fun v =>
      if 4 ≤ (lowerS v).length then
        md.findSome? (fun kv => if substrAcceptB v kv.1 then some kv.2 else none)
      else none)
  else none

/-- Strategy 4's best-pair scan: first 15 variations against first 300
names, keeping the strictly best score among those `>= 0.70`. -/
def bestSimFold (romVars : List Str) (xmlNames : List Str) : Option Str × ℚ :=
  (romVars.take 15).foldl (fun acc v =>
    (xmlNames.take 300).foldl (fun acc2 n =>
      let score := similarityQ (lowerS v) (lowerS n)
      if acc2.2 < score ∧ (7 : ℚ)/10 ≤ score then (some n, score) else acc2)
      acc) (none, 0)

/-- Strategy 4: resolve the best-scoring canonical name (when truthy) to
the first metadata entry carrying it as `original_name`. -/
def stage4 (romVars : List Str) (xmlNames : List Str) (md : MetaDict) : Option Entry :=
  match bestSimFold romVars xmlNames with
  | (some n, _) =>
    if n ≠ [] then
      md.findSome? (fun kv => if kv.2.original_name = n then some kv.2 else none)
    else none
  | (none, _) => none

/-- Tokenisation used by strategies 5 and 6 (a Python `set`, modelled as
a first-occurrence-ordered deduplicated list). -/
def sigWords (s : Str) : List Str :=
  (dedupKeepFirst (splitWs (punctToSpace (lowerS s)))).filter (fun w => 2 < w.length)

/-- The cleaned, lowercased canonical name used by strategies 5 and 6. -/
def xmlCleanOf (xmlName : Str) : Str := lowerS (pyStrip (removeParens xmlName))

/-- Strategy 5: word-overlap matching over the first 500 canonical names
(coverage `>= 0.5` on doubles equals doubling on integers). -/
def stage5 (romName : Str) (xmlNames : List Str) (md : MetaDict) : Option Entry :=
  let romWords := sigWords romName
  if 1 ≤ romWords.length then
    (xmlNames.take 500).findSome? (fun xmlName =>
      let xmlWords := (dedupKeepFirst (splitWs (punctToSpace (xmlCleanOf xmlName)))).filter
        (fun w => 2 < w.length)
      if 1 ≤ xmlWords.length then
        let common := (romWords.filter (fun w => w ∈ xmlWords)).length
        if 1 ≤ common ∧ (romWords.length ≤ 2 * common ∨ xmlWords.length ≤ 2 * common) then
          md.findSome? (fun kv => if kv.2.original_name = xmlName then some kv.2 else none)
        else none
      else none)
  else none

/-- Strategy 6: loose single-word containment over the first 200 names
(`len(word) >= clean_length * 0.3` equals `3 * clean_length <= 10 * len(word)`). -/
def stage6 (romName : Str) (xmlNames : List Str) (md : MetaDict) : Option Entry :=
  let romWords := sigWords romName
  if romWords.length = 1 then
    let romWord := romWords.headD []
    if 4 ≤ romWord.length then
      (xmlNames.take 200).findSome? (fun xmlName =>
        let xmlClean := xmlCleanOf xmlName
        if hasSub romWord xmlClean then
          if 3 * (xmlClean.filter (fun c => c ≠ ' ')).length ≤ 10 * romWord.length then
            md.findSome? (fun kv => if kv.2.original_name = xmlName then some kv.2 else none)
          else none
        else none)
    else none
  else none

/-- Model of `hyper_aggressive_rom_matching` (the `debug` parameter only
prints and is dropped). -/
def hyperMatch (romName : Str) (md : MetaDict) (xmlNames : List Str) : Option Entry :=
  let romVars := variationsOf romName
  match stage1 romVars md with
  | some e => some e
  | none =>
  match stage2 romVars md with
  | some e => some e
  | none =>
  match stage3 romName romVars md with
  | some e => some e
  | none =>
  match stage4 romVars xmlNames md with
  | some e => some e
  | none =>
  match stage5 romName xmlNames md with
  | some e => some e
  | none => stage6 romName xmlNames md

/-! ### Batch Matching Scheduler and Sequential Copier -/

/-- A ROM file.  `stem` and `name` are the `pathlib` derived fields the
script reads; `path` is the source path (a component list) used as the
copy source. -/
structure RomFile where
  stem : Str
  name : Str
  path : List Str
deriving DecidableEq

structure MatchResult where
  rom_file : RomFile
  matched : Bool
  genre : Str
  xml_name : Option Str
  full_genre : Str
deriving DecidableEq

/-- The loop body of `process_rom_batch_matching_only`: one ROM's result. -/
def matchOne (md : MetaDict) (xmlNames : List Str) (r : RomFile) : MatchResult :=
  match hyperMatch r.stem md xmlNames with
  | some e => MatchResult.mk r true e.genre (some e.original_name) e.full_genre
  | none => MatchResult.mk r false (strL "Unknown") none (strL "Unknown")

/-- Model of `process_rom_batch_matching_only`. -/
def processRomBatch (batch : List RomFile) (md : MetaDict)
    (xmlNames : List Str) : List MatchResult :=
  batch.map (matchOne md xmlNames)

/-- Fuel-driven slicing `[l[i:i+bs] for i in range(0, len(l), bs)]`. -/
def chunksF (bs : Nat) : Nat → List α → List (List α)
  | 0, _ => []
  | f + 1, l => if l.isEmpty then [] else l.take bs :: chunksF bs f (l.drop bs)

/-- The batch partition of `organize_roms_by_genre`:
`batch_size = max(1, total // max_workers)` then contiguous slices. -/
def romBatches (files : List RomFile) (workers : Nat) : List (List RomFile) :=
  chunksF (max 1 (files.length / workers)) files.length files

/-- Phase 1 as a list of per-batch result lists (the thread pool joins
them in completion order, modelled elsewhere as an arbitrary
permutation of this list). -/
def matchPhase (files : List RomFile) (md : MetaDict) (xmlNames : List Str)
    (workers : Nat) : List (List MatchResult) :=
  (romBatches files workers).map (fun b => processRomBatch b md xmlNames)

/-- The observable of claim C2: the (rom, matched-genre) pair of a result. -/
def matchedPair (r : MatchResult) : RomFile × Str := (r.rom_file, r.genre)

/-- `config.py`: `REMOVE_SPECIAL_CHARS = True`. -/
def cfgRemoveSpecialChars : Bool := true

/-- `config.py`: `TRIM_FILENAME_LENGTH = 32` (truthy). -/
def cfgTrimFilenameLength : Nat := 32

/-- The characters of regex `[<>:"/\\|?*]`. -/
def illegalChars : Str :=
  strL "<>:" ++ [quoteChar] ++ strL "/" ++ [backslashChar] ++ strL "|?*"

/-- `name_part[:available_length]` with Python slice semantics for a
possibly negative bound. -/
def pySlice (s : Str) (k : Int) : Str :=
  if 0 ≤ k then s.take k.toNat
  else s.take (s.length - min s.length k.natAbs)

/-- `rsplit('.', 1)` packaging: (name part, extension with dot or empty). -/
def lastDotSplit (s : Str) : Str × Str :=
  if containsChar '.' s then
    let r := s.reverse
    ((r.dropWhile (fun c => c ≠ '.')).tail.reverse,
     strL "." ++ (r.takeWhile (fun c => c ≠ '.')).reverse)
  else (s, [])

/-- Length trimming branch of `clean_filename`. -/
def trimToLength (f : Str) (m : Nat) : Str :=
  let np := lastDotSplit f
  pySlice np.1 ((m : Int) - np.2.length) ++ np.2

/-- Model of `clean_filename`.  With `REMOVE_SPECIAL_CHARS` the two
`re.sub` deletions keep exactly the characters in `[\w\s\-_.]` (the first
pattern's characters are a subset of what the second removes). -/
def cleanFilename (filename : Str) (maxLength : Option Nat) : Str :=
  let f1 := if cfgRemoveSpecialChars then
      (filename.filter (fun c => ¬ (c ∈ illegalChars))).filter
        (fun c => isWordChar c || isWsChar c || c = '-' || c = '_' || c = '.')
    else filename
  let f2 := match maxLength with
    | some m => if m ≠ 0 ∧ m < f1.length then trimToLength f1 m else f1
    | none => f1
  pyStrip f2

/-- `clean_genre = clean_filename(result['genre']) or "Unknown"`. -/
def cleanGenreOf (genre : Str) : Str :=
  let c := cleanFilename genre none
  if c = [] then strL "Unknown" else c

/-- The destination filename (trimmed when `TRIM_FILENAME_LENGTH` is truthy). -/
def destNameOf (name : Str) : Str :=
  if cfgTrimFilenameLength ≠ 0 then cleanFilename name (some cfgTrimFilenameLength)
  else name

/-- The destination path of one result under the genre root. -/
def destOf (genreDir : List Str) (r : MatchResult) : List Str :=
  genreDir ++ [cleanGenreOf r.genre, destNameOf r.rom_file.name]

/-- The filesystem model: a map from paths to file contents (directories
are implicit; `mkdir(exist_ok=True)` is a no-op on it). -/
abbrev Fs := List (List Str × Nat)

def fsGet (fs : Fs) (p : List Str) : Option Nat :=
  match fs with
  | [] => none
  | kv :: rest => if kv.1 = p then some kv.2 else fsGet rest p

def fsInsert (p : List Str) (v : Nat) : Fs → Fs
  | [] => [(p, v)]
  | kv :: rest => if kv.1 = p then (p, v) :: rest else kv :: fsInsert p v rest

/-- `stats['genres'][g] = stats['genres'].get(g, 0) + 1`. -/
def bumpCount (k : Str) : List (Str × Nat) → List (Str × Nat)
  | [] => [(k, 1)]
  | kv :: rest => if kv.1 = k then (kv.1, kv.2 + 1) :: rest else kv :: bumpCount k rest

structure Stats where
  matched : Nat
  unmatched : Nat
  genres : List (Str × Nat)
deriving DecidableEq

/-- The whole state threaded by `copy_roms_sequentially`; `copies` counts
the successful `shutil.copy2` calls of the run. -/
structure CopyState where
  stats : Stats
  matchedDetails : List (Str × Option Str × Str)
  unmatchedRoms : List Str
  fs : Fs
  copies : Nat
deriving DecidableEq

/-- One iteration of the `copy_roms_sequentially` loop.  A copy happens
only when the destination does not exist; a missing source makes
`shutil.copy2` raise, which the code catches and ignores. -/
def copyStep (genreDir : List Str) (st : CopyState) (r : MatchResult) : CopyState :=
  let cg := cleanGenreOf r.genre
  let stats1 :=
    if r.matched then Stats.mk (st.stats.matched + 1) st.stats.unmatched st.stats.genres
    else Stats.mk st.stats.matched (st.stats.unmatched + 1) st.stats.genres
  let stats2 := Stats.mk stats1.matched stats1.unmatched (bumpCount cg stats1.genres)
  let details :=
    if r.matched then st.matchedDetails ++ [(r.rom_file.name, r.xml_name, r.full_genre)]
    else st.matchedDetails
  let unmatchedL :=
    if r.matched then st.unmatchedRoms else st.unmatchedRoms ++ [r.rom_file.name]
  let destination := destOf genreDir r
  let fsCopies :=
    if fsGet st.fs destination = none then
      match fsGet st.fs r.rom_file.path with
      | some content => (fsInsert destination content st.fs, st.copies + 1)
      | none => (st.fs, st.copies)
    else (st.fs, st.copies)
  CopyState.mk stats2 details unmatchedL fsCopies.1 fsCopies.2

/-- Model of `copy_roms_sequentially`. -/
def copyRomsSequentially (results : List MatchResult) (genreDir : List Str)
    (fs0 : Fs) : CopyState :=
  results.foldl (copyStep genreDir) (CopyState.mk (Stats.mk 0 0 []) [] [] fs0 0)

/-- Model of the `organize_roms_by_genre` control flow: parse, abort on an
empty catalog, abort on an empty ROM list, else match (all batches, here
joined in batch order) and copy into the hard-coded `genre` root.
`none` records an early abort before the matching/copying phases. -/
def organizeRomsByGenre (doc : Option (List XmlGame)) (files : List RomFile)
    (workers : Nat) (fs0 : Fs) : Option CopyState :=
  let parsed := enhancedXmlParsing doc
  if parsed.1 = [] then none
  else if files = [] then none
  else some (copyRomsSequentially
    (joinL (matchPhase files parsed.1 parsed.2 workers)) [strL "genre"] fs0)

/-- Modelled from the spec: the Sequential Copier section says
`clean_genre` is `result.genre` with "characters illegal in path
components" stripped; the illegal set is the one `clean_filename` names
in its first pattern.  Used only to compare the spec's sanitizer with
the implemented one. -/
def sanitizeIllegalOnly (g : Str) : Str :=
  g.filter (fun c => ¬ (c ∈ illegalChars))

/-! ### Helper lemmas: characters and lowercasing -/

theorem toNat_ofNat_valid (n : Nat) (h : Char.isValidCharNat n) :
    (Char.ofNat n).toNat = n := by
  unfold Char.ofNat
  rw [dif_pos h]
  simp [Char.ofNatAux, Char.toNat, UInt32.toNat, UInt32.ofNat']

theorem char_eq_iff_toNat (a b : Char) : a = b ↔ a.toNat = b.toNat := by
  constructor
  · intro h; rw [h]
  · intro h; exact Char.ext (UInt32.toNat.inj h)

theorem isWsChar_false_of_high (c : Char) (h : 65 ≤ c.toNat) :
    isWsChar c = false := by
  have h32 : (' ' : Char).toNat = 32 := by decide
  have h9 : (Char.ofNat 9).toNat = 9 := by decide
  have h10 : (Char.ofNat 10).toNat = 10 := by decide
  have h13 : (Char.ofNat 13).toNat = 13 := by decide
  have h11 : (Char.ofNat 11).toNat = 11 := by decide
  have h12 : (Char.ofNat 12).toNat = 12 := by decide
  simp only [isWsChar, char_eq_iff_toNat, h32, h9, h10, h13, h11, h12,
    Bool.or_eq_false_iff, decide_eq_false_iff_not]
  omega

theorem isWsChar_lowerChar (c : Char) : isWsChar (lowerChar c) = isWsChar c := by
  unfold lowerChar
  by_cases h : isUpperChar c = true
  · rw [if_pos h]
    unfold isUpperChar at h
    simp only [Bool.and_eq_true, decide_eq_true_eq] at h
    have hv : Char.isValidCharNat (c.toNat + 32) := Or.inl (by omega)
    have ht := toNat_ofNat_valid (c.toNat + 32) hv
    rw [isWsChar_false_of_high c (by omega), isWsChar_false_of_high _ (by omega)]
  · rw [if_neg h]

theorem lowerS_length (s : Str) : (lowerS s).length = s.length :=
  List.length_map s lowerChar

theorem dropWhile_ws_lowerS (s : Str) :
    (lowerS s).dropWhile isWsChar = lowerS (s.dropWhile isWsChar) := by
  unfold lowerS
  rw [List.dropWhile_map]
  have : (isWsChar ∘ lowerChar) = isWsChar := by
    funext c; simp [Function.comp, isWsChar_lowerChar]
  rw [this]

theorem pyStrip_lowerS (s : Str) : pyStrip (lowerS s) = lowerS (pyStrip s) := by
  unfold pyStrip
  rw [dropWhile_ws_lowerS]
  rw [show (lowerS (s.dropWhile isWsChar)).reverse = lowerS (s.dropWhile isWsChar).reverse by
    simp [lowerS, List.map_reverse]]
  rw [dropWhile_ws_lowerS]
  simp [lowerS, List.map_reverse]

theorem lowerS_cons (c : Char) (t : Str) : lowerS (c :: t) = lowerChar c :: lowerS t := rfl

theorem collapseAux_lowerS (b : Bool) (s : Str) :
    collapseAux b (lowerS s) = lowerS (collapseAux b s) := by
  induction s generalizing b with
  | nil => rfl
  | cons c t ih =>
    rw [lowerS_cons]
    show collapseAux b (lowerChar c :: lowerS t) = lowerS (collapseAux b (c :: t))
    unfold collapseAux
    rw [isWsChar_lowerChar]
    by_cases hw : isWsChar c = true
    · rw [if_pos hw, if_pos hw]
      by_cases hb : b = true
      · rw [if_pos hb, if_pos hb]
        exact ih true
      · rw [if_neg hb, if_neg hb, lowerS_cons]
        rw [show lowerChar ' ' = ' ' from by decide]
        rw [ih true]
    · rw [if_neg hw, if_neg hw, lowerS_cons, ih false]

theorem collapseWs_lowerS (s : Str) : collapseWs (lowerS s) = lowerS (collapseWs s) :=
  collapseAux_lowerS false s

/-! ### Helper lemmas: ordered-set insertion and membership -/

theorem mem_addVar_self (l : List Str) (x : Str) : x ∈ addVar l x := by
  unfold addVar
  by_cases h : x ∈ l
  · rw [if_pos h]; exact h
  · rw [if_neg h]; exact List.mem_append_right l (List.mem_singleton.mpr rfl)

theorem mem_addVar (l : List Str) (x a : Str) (h : a ∈ l) : a ∈ addVar l x := by
  unfold addVar
  by_cases hx : x ∈ l
  · rw [if_pos hx]; exact h
  · rw [if_neg hx]; exact List.mem_append_left _ h

theorem mem_addVars (xs l : List Str) (a : Str) (h : a ∈ l) : a ∈ addVars l xs := by
  induction xs generalizing l with
  | nil => exact h
  | cons x t ih => exact ih (addVar l x) (mem_addVar l x a h)

theorem mem_step1Pass (v : List Str) (cur c a : Str) (h : a ∈ v) :
    a ∈ (step1Pass v cur c).1 := by
  unfold step1Pass
  by_cases hc : c = []
  · rw [if_pos hc]; exact h
  · rw [if_neg hc]; exact mem_addVar _ _ _ (mem_addVar _ _ _ h)

/-! ### Helper lemmas: the final cleanup loop -/

theorem cleanupLoop_mem (vars : List Str) (seen : List Str) (v : Str)
    (hv : v ∈ vars) (hne : v ≠ []) (hlen : 1 < (pyStrip v).length) :
    collapseWs (pyStrip v) ∈ seen ∨ collapseWs (pyStrip v) ∈ cleanupLoop seen vars := by
  induction vars generalizing seen with
  | nil => cases hv
  | cons x t ih =>
    rcases List.mem_cons.mp hv with hx | ht
    · subst hx
      unfold cleanupLoop
      rw [if_pos ⟨hne, hlen⟩]
      by_cases hs : collapseWs (pyStrip v) ∈ seen
      · exact Or.inl hs
      · rw [if_neg hs]
        exact Or.inr (List.mem_cons_self _ _)
    · unfold cleanupLoop
      by_cases hc : x ≠ [] ∧ 1 < (pyStrip x).length
      · rw [if_pos hc]
        by_cases hs : collapseWs (pyStrip x) ∈ seen
        · rw [if_pos hs]
          exact ih seen ht
        · rw [if_neg hs]
          rcases ih (collapseWs (pyStrip x) :: seen) ht with h1 | h1
          · rcases List.mem_cons.mp h1 with h2 | h2
            · exact Or.inr (h2 ▸ List.mem_cons_self _ _)
            · exact Or.inl h2
          · exact Or.inr (List.mem_cons_of_mem _ h1)
      · rw [if_neg hc]
        exact ih seen ht

theorem cleanupLoop_not_mem_seen (vars seen : List Str) (x : Str)
    (hx : x ∈ cleanupLoop seen vars) : x ∉ seen := by
  induction vars generalizing seen with
  | nil => cases hx
  | cons v t ih =>
    unfold cleanupLoop at hx
    by_cases hc : v ≠ [] ∧ 1 < (pyStrip v).length
    · rw [if_pos hc] at hx
      by_cases hs : collapseWs (pyStrip v) ∈ seen
      · rw [if_pos hs] at hx
        exact ih seen hx
      · rw [if_neg hs] at hx
        rcases List.mem_cons.mp hx with h1 | h1
        · subst h1; exact hs
        · intro hmem
          exact ih _ h1 (List.mem_cons_of_mem _ hmem)
    · rw [if_neg hc] at hx
      exact ih seen hx

theorem cleanupLoop_nodup (vars : List Str) (seen : List Str) :
    (cleanupLoop seen vars).Nodup := by
  induction vars generalizing seen with
  | nil => exact List.nodup_nil
  | cons v t ih =>
    unfold cleanupLoop
    by_cases hc : v ≠ [] ∧ 1 < (pyStrip v).length
    · rw [if_pos hc]
      by_cases hs : collapseWs (pyStrip v) ∈ seen
      · rw [if_pos hs]; exact ih seen
      · rw [if_neg hs]
        refine List.nodup_cons.mpr ⟨?_, ih _⟩
        intro hmem
        exact cleanupLoop_not_mem_seen t _ _ hmem (List.mem_cons_self _ _)
    · rw [if_neg hc]; exact ih seen

theorem cleanupLoop_shape (vars seen : List Str) (x : Str)
    (hx : x ∈ cleanupLoop seen vars) :
    ∃ v ∈ vars, v ≠ [] ∧ 1 < (pyStrip v).length ∧ x = collapseWs (pyStrip v) := by
  induction vars generalizing seen with
  | nil => cases hx
  | cons v t ih =>
    unfold cleanupLoop at hx
    by_cases hc : v ≠ [] ∧ 1 < (pyStrip v).length
    · rw [if_pos hc] at hx
      by_cases hs : collapseWs (pyStrip v) ∈ seen
      · rw [if_pos hs] at hx
        rcases ih seen hx with ⟨w, hw, h⟩
        exact ⟨w, List.mem_cons_of_mem _ hw, h⟩
      · rw [if_neg hs] at hx
        rcases List.mem_cons.mp hx with h1 | h1
        · exact ⟨v, List.mem_cons_self _ _, hc.1, hc.2, h1⟩
        · rcases ih _ h1 with ⟨w, hw, h⟩
          exact ⟨w, List.mem_cons_of_mem _ hw, h⟩
    · rw [if_neg hc] at hx
      rcases ih seen hx with ⟨w, hw, h⟩
      exact ⟨w, List.mem_cons_of_mem _ hw, h⟩

/-! ### Helper lemmas: lengths survive whitespace collapsing -/

/-- Count of non-whitespace characters. -/
def countNW (s : Str) : Nat := s.countP (fun c => !(isWsChar c))

theorem countNW_collapseAux (b : Bool) (s : Str) :
    countNW (collapseAux b s) = countNW s := by
  induction s generalizing b with
  | nil => rfl
  | cons c t ih =>
    have hsp : isWsChar ' ' = true := by decide
    unfold collapseAux
    by_cases hw : isWsChar c = true
    · by_cases hb : b = true
      · rw [if_pos hw, if_pos hb]
        unfold countNW
        rw [List.countP_cons, hw]
        simp only [Bool.not_true, if_neg Bool.false_ne_true, Nat.add_zero]
        exact ih true
      · rw [if_pos hw, if_neg hb]
        simp [countNW, List.countP_cons, hw, hsp]
        exact ih true
    · rw [if_neg hw]
      simp [countNW, List.countP_cons, hw]
      exact ih false

theorem head?_dropWhile_false {α : Type} (p : α → Bool) (l : List α) (x : α)
    (h : (l.dropWhile p).head? = some x) : p x = false := by
  induction l with
  | nil => cases h
  | cons a t ih =>
    rw [List.dropWhile_cons] at h
    by_cases hp : p a = true
    · rw [if_pos hp] at h
      exact ih h
    · rw [if_neg hp] at h
      cases h
      exact Bool.eq_false_iff.mpr hp

theorem getLast?_dropWhile {α : Type} (p : α → Bool) (l : List α)
    (h : l.dropWhile p ≠ []) : (l.dropWhile p).getLast? = l.getLast? := by
  induction l with
  | nil => cases h rfl
  | cons a t ih =>
    rw [List.dropWhile_cons]
    by_cases hp : p a = true
    · rw [List.dropWhile_cons, if_pos hp] at h
      rw [if_pos hp, ih h]
      have ht : t ≠ [] := by
        intro he
        exact h (by rw [he]; rfl)
      rcases List.exists_cons_of_ne_nil ht with ⟨y, ys, hy⟩
      subst hy
      rfl
    · rw [if_neg hp]

theorem mem_of_getLast?_eq {α : Type} (l : List α) (b : α)
    (h : l.getLast? = some b) : b ∈ l := by
  induction l with
  | nil => cases h
  | cons a t ih =>
    cases t with
    | nil =>
      cases h
      exact List.mem_singleton.mpr rfl
    | cons y ys =>
      rw [show (a :: y :: ys).getLast? = (y :: ys).getLast? from rfl] at h
      exact List.mem_cons_of_mem _ (ih h)

theorem getLast?_cons_of_ne {α : Type} (x : α) (t : List α) (h : t ≠ []) :
    (x :: t).getLast? = t.getLast? := by
  rcases List.exists_cons_of_ne_nil h with ⟨y, ys, hy⟩
  subst hy
  rfl

/-- The stripped string starts and ends with non-whitespace, so a string
of stripped length at least 2 keeps at least two characters through
whitespace collapsing. -/
theorem two_le_length_collapseWs_pyStrip (v : Str) (h : 2 ≤ (pyStrip v).length) :
    2 ≤ (collapseWs (pyStrip v)).length := by
  have hcnt : 2 ≤ countNW (pyStrip v) := by
    have hwne : pyStrip v ≠ [] := by
      intro he
      rw [he] at h
      simp at h
    have hmne : (v.dropWhile isWsChar).reverse.dropWhile isWsChar ≠ [] := by
      intro he
      apply hwne
      unfold pyStrip
      rw [he]
      rfl
    have hhead : (pyStrip v).head? = (v.dropWhile isWsChar).head? := by
      unfold pyStrip
      rw [List.head?_reverse, getLast?_dropWhile _ _ hmne, List.getLast?_reverse]
    have hlast : (pyStrip v).getLast? =
        ((v.dropWhile isWsChar).reverse.dropWhile isWsChar).head? := by
      unfold pyStrip
      rw [List.getLast?_reverse]
    rcases List.exists_cons_of_ne_nil hwne with ⟨x, t, hxt⟩
    have htne : t ≠ [] := by
      intro he
      rw [hxt, he] at h
      simp at h
    have hx : isWsChar x = false := by
      apply head?_dropWhile_false isWsChar v x
      rw [← hhead, hxt]
      rfl
    have hyex : ∃ y, ((v.dropWhile isWsChar).reverse.dropWhile isWsChar).head? = some y := by
      rcases List.exists_cons_of_ne_nil hmne with ⟨y, ys, hys⟩
      exact ⟨y, by rw [hys]; rfl⟩
    rcases hyex with ⟨y, hyq⟩
    have hy : isWsChar y = false :=
      head?_dropWhile_false isWsChar (v.dropWhile isWsChar).reverse y hyq
    have hyw : (pyStrip v).getLast? = some y := by rw [hlast, hyq]
    have hyt : y ∈ t := by
      rw [hxt, getLast?_cons_of_ne _ _ htne] at hyw
      exact mem_of_getLast?_eq t y hyw
    have hpos : 0 < t.countP (fun c => !(isWsChar c)) :=
      List.countP_pos_iff.mpr ⟨y, hyt, by simp [hy]⟩
    rw [hxt]
    unfold countNW
    rw [List.countP_cons, hx]
    rw [show (if (!false) = true then 1 else 0) = 1 from rfl]
    exact Nat.add_le_add_right hpos 1
  calc 2 ≤ countNW (pyStrip v) := hcnt
    _ = countNW (collapseWs (pyStrip v)) := (countNW_collapseAux false _).symm
    _ ≤ (collapseWs (pyStrip v)).length := List.countP_le_length _

theorem cleanupLoop_mem_nil (vars : List Str) (v : Str) (hv : v ∈ vars)
    (hne : v ≠ []) (hlen : 1 < (pyStrip v).length)
    (hfix : collapseWs (pyStrip v) = v) : v ∈ cleanupLoop [] vars := by
  rcases cleanupLoop_mem vars [] v hv hne hlen with h | h
  · cases h
  · rw [hfix] at h
    exact h

/-- Claim C1 (amended): for every input string that is already
whitespace-normalized (no leading/trailing whitespace, whitespace runs
already collapsed) and of length at least 2, the Variation Generator
returns a non-empty list that contains the input and its lowercase form,
has no duplicate entries, and has no entries of length below 2.  (For
inputs whose stripped form is shorter than 2 characters the code returns
an empty list, and entries are emitted in whitespace-collapsed form, so
the unrestricted claim fails; see the counterexample.) -/
theorem c1_variations_amended (s : Str) (h1 : pyStrip s = s)
    (h2 : collapseWs s = s) (h3 : 2 ≤ s.length) :
    variationsOf s ≠ [] ∧ s ∈ variationsOf s ∧ lowerS s ∈ variationsOf s ∧
    (variationsOf s).Nodup ∧ ∀ v ∈ variationsOf s, 2 ≤ v.length := by
  have hne : s ≠ [] := by
    intro he
    rw [he] at h3
    simp at h3
  have hlen_s : 1 < (pyStrip s).length := by
    rw [h1]
    omega
  have hfix_s : collapseWs (pyStrip s) = s := by rw [h1, h2]
  have hstrip_l : pyStrip (lowerS s) = lowerS s := by
    rw [pyStrip_lowerS, h1]
  have hne_l : lowerS s ≠ [] := by
    intro he
    have := lowerS_length s
    rw [he] at this
    simp at this
    omega
  have hlen_l : 1 < (pyStrip (lowerS s)).length := by
    rw [hstrip_l, lowerS_length]
    omega
  have hfix_l : collapseWs (pyStrip (lowerS s)) = lowerS s := by
    rw [hstrip_l, collapseWs_lowerS, h2]
  have hs_mem : s ∈ variationsOf s := by
    simp only [variationsOf]
    apply cleanupLoop_mem_nil _ _ _ hne hlen_s hfix_s
    apply mem_addVars
    apply mem_addVars
    apply mem_addVars
    apply mem_addVars
    apply mem_addVars
    apply mem_step1Pass
    apply mem_step1Pass
    rw [h1]
    exact mem_addVar _ _ _ (mem_addVar_self [] s)
  have hl_mem : lowerS s ∈ variationsOf s := by
    simp only [variationsOf]
    apply cleanupLoop_mem_nil _ _ _ hne_l hlen_l hfix_l
    apply mem_addVars
    apply mem_addVars
    apply mem_addVars
    apply mem_addVars
    apply mem_addVars
    apply mem_step1Pass
    apply mem_step1Pass
    rw [h1]
    exact mem_addVar_self _ _
  refine ⟨List.ne_nil_of_mem hs_mem, hs_mem, hl_mem, ?_, ?_⟩
  · simp only [variationsOf]
    exact cleanupLoop_nodup _ _
  · intro v hv
    simp only [variationsOf] at hv
    rcases cleanupLoop_shape _ _ _ hv with ⟨w, _, _, hwlen, hveq⟩
    rw [hveq]
    exact two_le_length_collapseWs_pyStrip w hwlen

/-- Claim C1 counterexample: on the non-empty input `"a"` the Variation
Generator returns the empty list (the final cleanup drops every variant
of stripped length below 2), so the collection is empty and does not
contain the input. -/
theorem c1_counterexample :
    variationsOf (strL "a") = [] ∧ strL "a" ∉ variationsOf (strL "a") := by
  decide

/-- Witness for claim C1 at the concrete normalized input `"ab"`. -/
theorem c1_witness :
    variationsOf (strL "ab") ≠ [] ∧ strL "ab" ∈ variationsOf (strL "ab") ∧
    lowerS (strL "ab") ∈ variationsOf (strL "ab") ∧
    (variationsOf (strL "ab")).Nodup ∧
    ∀ v ∈ variationsOf (strL "ab"), 2 ≤ v.length :=
  c1_variations_amended (strL "ab") (by decide) (by decide) (by decide)

/-! ### Helper lemmas: the batch partition -/

theorem chunksF_nil (bs f : Nat) : chunksF bs f ([] : List α) = [] := by
  cases f with
  | zero => rfl
  | succ f => rfl

theorem joinL_chunksF (bs : Nat) (hbs : 1 ≤ bs) :
    ∀ (f : Nat) (l : List α), l.length ≤ f → joinL (chunksF bs f l) = l := by
  intro f
  induction f with
  | zero =>
    intro l h
    have hl : l = [] := List.length_eq_zero.mp (Nat.le_zero.mp h)
    subst hl
    rfl
  | succ f ih =>
    intro l h
    by_cases hl : l = []
    · subst hl
      rw [chunksF_nil]
      rfl
    · have hlen1 : 1 ≤ l.length := by
        rcases List.exists_cons_of_ne_nil hl with ⟨a, t, rfl⟩
        simp
      have hdrop : (l.drop bs).length ≤ f := by
        rw [List.length_drop]
        omega
      unfold chunksF
      rw [if_neg (by simp [hl])]
      show l.take bs ++ joinL (chunksF bs f (l.drop bs)) = l
      rw [ih _ hdrop, List.take_append_drop]

theorem chunksF_sizes (bs : Nat) (hbs : 1 ≤ bs) :
    ∀ (f : Nat) (l : List α), l.length ≤ f →
      ∀ c ∈ chunksF bs f l, c ≠ [] ∧ c.length ≤ bs := by
  intro f
  induction f with
  | zero =>
    intro l h c hc
    exact absurd hc (by rw [show chunksF bs 0 l = [] from rfl]; simp)
  | succ f ih =>
    intro l h c hc
    by_cases hl : l = []
    · subst hl
      rw [chunksF_nil] at hc
      cases hc
    · have hlen1 : 1 ≤ l.length := by
        rcases List.exists_cons_of_ne_nil hl with ⟨a, t, rfl⟩
        simp
      unfold chunksF at hc
      rw [if_neg (by simp [hl])] at hc
      rcases List.mem_cons.mp hc with rfl | hmem
      · constructor
        · intro he
          rcases List.take_eq_nil_iff.mp he with h0 | h0
          · omega
          · exact hl h0
        · rw [List.length_take]
          omega
      · exact ih (l.drop bs) (by rw [List.length_drop]; omega) c hmem

theorem chunksF_count (bs : Nat) (hbs : 1 ≤ bs) :
    ∀ (f : Nat) (l : List α), l.length ≤ f →
      (chunksF bs f l).length = (l.length + bs - 1) / bs := by
  intro f
  induction f with
  | zero =>
    intro l h
    have hl : l = [] := List.length_eq_zero.mp (Nat.le_zero.mp h)
    subst hl
    rw [show chunksF bs 0 ([] : List α) = [] from rfl]
    simp [Nat.div_eq_of_lt (show bs - 1 < bs by omega)]
  | succ f ih =>
    intro l h
    by_cases hl : l = []
    · subst hl
      rw [chunksF_nil]
      simp [Nat.div_eq_of_lt (show bs - 1 < bs by omega)]
    · have hlen1 : 1 ≤ l.length := by
        rcases List.exists_cons_of_ne_nil hl with ⟨a, t, rfl⟩
        simp
      unfold chunksF
      rw [if_neg (by simp [hl])]
      rw [List.length_cons, ih (l.drop bs) (by rw [List.length_drop]; omega),
        List.length_drop]
      by_cases hcmp : l.length ≤ bs
      · have h0 : l.length - bs = 0 := by omega
        rw [h0]
        rw [Nat.div_eq_of_lt (show 0 + bs - 1 < bs by omega)]
        have : (l.length + bs - 1) / bs = 1 :=
          Nat.div_eq_of_lt_le (by omega) (by omega)
        omega
      · have e1 : l.length - bs + bs - 1 = l.length - 1 := by omega
        have e2 : l.length + bs - 1 = (l.length - 1) + bs := by omega
        rw [e1, e2, Nat.add_div_right _ (show 0 < bs by omega)]

theorem chunksF_dropLast_sizes (bs : Nat) (hbs : 1 ≤ bs) :
    ∀ (f : Nat) (l : List α), l.length ≤ f →
      ∀ c ∈ (chunksF bs f l).dropLast, c.length = bs := by
  intro f
  induction f with
  | zero =>
    intro l h c hc
    exact absurd hc (by rw [show chunksF bs 0 l = [] from rfl]; simp)
  | succ f ih =>
    intro l h c hc
    by_cases hl : l = []
    · subst hl
      rw [chunksF_nil] at hc
      cases hc
    · have hlen1 : 1 ≤ l.length := by
        rcases List.exists_cons_of_ne_nil hl with ⟨a, t, rfl⟩
        simp
      unfold chunksF at hc
      rw [if_neg (by simp [hl])] at hc
      by_cases hrest : chunksF bs f (l.drop bs) = []
      · rw [hrest] at hc
        simp at hc
      · rw [List.dropLast_cons_of_ne_nil hrest] at hc
        rcases List.mem_cons.mp hc with rfl | hmem
        · have hd : l.drop bs ≠ [] := by
            intro he
            rw [he, chunksF_nil] at hrest
            exact hrest rfl
          have hbl : bs < l.length := by
            by_contra hno
            push_neg at hno
            exact hd (List.drop_eq_nil_of_le hno)
          rw [List.length_take]
          omega
        · exact ih (l.drop bs) (by rw [List.length_drop]; omega) c hmem

/-- Claim C4 (amended): the scheduler splits the ROM list into contiguous
batches of size `batch_size = max(1, total // worker_count)`; every batch
except possibly the last has exactly that size, the last is non-empty and
at most that size, concatenation restores the original list, and the
number of batches is `ceil(total / batch_size)` — which can exceed
`worker_count` (the remainder forms an extra batch rather than being
absorbed by the last one). -/
theorem c4_partition_amended (files : List RomFile) (workers : Nat)
    (_hw : 1 ≤ workers) :
    joinL (romBatches files workers) = files ∧
    (∀ b ∈ romBatches files workers,
      b ≠ [] ∧ b.length ≤ max 1 (files.length / workers)) ∧
    (∀ b ∈ (romBatches files workers).dropLast,
      b.length = max 1 (files.length / workers)) ∧
    (romBatches files workers).length =
      (files.length + max 1 (files.length / workers) - 1) /
        max 1 (files.length / workers) := by
  have hbs : 1 ≤ max 1 (files.length / workers) := le_max_left _ _
  unfold romBatches
  exact ⟨joinL_chunksF _ hbs _ _ le_rfl, chunksF_sizes _ hbs _ _ le_rfl,
    chunksF_dropLast_sizes _ hbs _ _ le_rfl, chunksF_count _ hbs _ _ le_rfl⟩

/-- Ten concrete ROM files for the claim C4 counterexample. -/
def c4files : List RomFile := List.replicate 10 (RomFile.mk [] [] [])

/-- Claim C4 counterexample: with 10 ROM files and `worker_count = 4` the
code produces 5 batches (`batch_size = max(1, 10 // 4) = 2`, five slices
of 2), not the 4 batches the claim requires; the remainder is never
absorbed into the last batch. -/
theorem c4_counterexample :
    (romBatches c4files 4).length = 5 ∧ (romBatches c4files 4).length ≠ 4 := by
  decide

/-- Witness for claim C4 at 10 files and 4 workers. -/
theorem c4_witness :
    joinL (romBatches c4files 4) = c4files ∧
    (∀ b ∈ romBatches c4files 4,
      b ≠ [] ∧ b.length ≤ max 1 (c4files.length / 4)) ∧
    (∀ b ∈ (romBatches c4files 4).dropLast,
      b.length = max 1 (c4files.length / 4)) ∧
    (romBatches c4files 4).length =
      (c4files.length + max 1 (c4files.length / 4) - 1) /
        max 1 (c4files.length / 4) :=
  c4_partition_amended c4files 4 (by decide)

/-! ### Claim C2: worker-count invariance of the matching phase -/

theorem joinL_perm {l₁ l₂ : List (List α)} (h : l₁.Perm l₂) :
    (joinL l₁).Perm (joinL l₂) := by
  induction h with
  | nil => exact List.Perm.refl _
  | cons x _ ih => exact List.Perm.append_left x ih
  | swap x y l =>
    show (y ++ (x ++ joinL l)).Perm (x ++ (y ++ joinL l))
    rw [← List.append_assoc, ← List.append_assoc]
    exact List.Perm.append_right _ List.perm_append_comm
  | trans _ _ ih1 ih2 => exact ih1.trans ih2

theorem joinL_map_map (g : α → β) (l : List (List α)) :
    joinL (l.map (List.map g)) = (joinL l).map g := by
  induction l with
  | nil => rfl
  | cons x t ih =>
    show List.map g x ++ joinL (t.map (List.map g)) = (x ++ joinL t).map g
    rw [ih, List.map_append]

/-- Joining the per-batch result lists in batch order gives exactly the
sequential matching of the whole file list, for ANY worker count. -/
theorem joinL_matchPhase (files : List RomFile) (md : MetaDict)
    (xmlNames : List Str) (w : Nat) :
    joinL (matchPhase files md xmlNames w) = processRomBatch files md xmlNames := by
  unfold matchPhase processRomBatch romBatches
  rw [joinL_map_map, joinL_chunksF _ (le_max_left _ _) _ _ le_rfl]

/-- Claim C2: for a fixed catalog and ROM list, the multiset of
(rom, matched-genre) pairs produced by the batch matching phase is the
same for every worker count and every completion order of the batches;
only the emission order can differ. -/
theorem c2_worker_invariance (md : MetaDict) (xmlNames : List Str)
    (files : List RomFile) (w1 w2 : Nat) (agg1 agg2 : List (List MatchResult))
    (_hw1 : 1 ≤ w1) (_hw2 : 1 ≤ w2)
    (h1 : agg1.Perm (matchPhase files md xmlNames w1))
    (h2 : agg2.Perm (matchPhase files md xmlNames w2)) :
    ((joinL agg1).map matchedPair).Perm ((joinL agg2).map matchedPair) := by
  have k1 := joinL_perm h1
  have k2 := joinL_perm h2
  rw [joinL_matchPhase] at k1 k2
  exact (k1.map matchedPair).trans ((k2.map matchedPair).symm)

/-- Two concrete ROM files for the claim C2 witness. -/
def c2files : List RomFile :=
  [RomFile.mk (strL "ab") (strL "ab.nes") [strL "ab.nes"],
   RomFile.mk (strL "cd") (strL "cd.nes") [strL "cd.nes"]]

/-- Witness for claim C2: 1 worker versus 2 workers on two files. -/
theorem c2_witness :
    ((joinL (matchPhase c2files [] [] 1)).map matchedPair).Perm
      ((joinL (matchPhase c2files [] [] 2)).map matchedPair) :=
  c2_worker_invariance [] [] c2files 1 2 _ _ (by decide) (by decide)
    (List.Perm.refl _) (List.Perm.refl _)

/-! ### Helper lemmas: the Sequential Copier -/

/-- Total of the per-genre counters. -/
def sumCounts (d : List (Str × Nat)) : Nat := (d.map (fun kv => kv.2)).sum

theorem sumCounts_bumpCount (k : Str) (d : List (Str × Nat)) :
    sumCounts (bumpCount k d) = sumCounts d + 1 := by
  induction d with
  | nil => rfl
  | cons kv rest ih =>
    unfold bumpCount
    by_cases h : kv.1 = k
    · rw [if_pos h]
      simp [sumCounts]
      omega
    · rw [if_neg h]
      simp only [sumCounts, List.map_cons, List.sum_cons] at ih ⊢
      omega

theorem copyStep_stats (genreDir : List Str) (st : CopyState) (r : MatchResult) :
    (copyStep genreDir st r).stats.matched + (copyStep genreDir st r).stats.unmatched
      = st.stats.matched + st.stats.unmatched + 1 ∧
    sumCounts (copyStep genreDir st r).stats.genres
      = sumCounts st.stats.genres + 1 := by
  unfold copyStep
  by_cases hm : r.matched = true
  · simp only [hm, if_pos, if_true, sumCounts_bumpCount]
    constructor
    · omega
    · trivial
  · simp only [hm, if_neg, if_false, Bool.false_eq_true, sumCounts_bumpCount]
    constructor
    · omega
    · trivial

theorem copyFold_stats (genreDir : List Str) :
    ∀ (results : List MatchResult) (st : CopyState),
      (results.foldl (copyStep genreDir) st).stats.matched +
        (results.foldl (copyStep genreDir) st).stats.unmatched =
        st.stats.matched + st.stats.unmatched + results.length ∧
      sumCounts (results.foldl (copyStep genreDir) st).stats.genres =
        sumCounts st.stats.genres + results.length := by
  intro results
  induction results with
  | nil =>
    intro st
    simp
  | cons r t ih =>
    intro st
    rw [List.foldl_cons]
    rcases ih (copyStep genreDir st r) with ⟨ha, hb⟩
    rcases copyStep_stats genreDir st r with ⟨hc, hd⟩
    constructor
    · rw [ha, hc, List.length_cons]
      omega
    · rw [hb, hd, List.length_cons]
      omega

theorem fsGet_fsInsert (p q : List Str) (v : Nat) (fs : Fs) :
    fsGet (fsInsert p v fs) q = if q = p then some v else fsGet fs q := by
  induction fs with
  | nil =>
    unfold fsInsert fsGet
    by_cases h : q = p
    · subst h
      rw [if_pos rfl, if_pos rfl]
    · rw [if_neg (fun hh : p = q => h hh.symm), if_neg h]
      rfl
  | cons kv rest ih =>
    unfold fsInsert
    by_cases hk : kv.1 = p
    · rw [if_pos hk]
      unfold fsGet
      by_cases h : q = p
      · subst h
        rw [if_pos rfl, if_pos rfl]
      · rw [if_neg (fun hh : p = q => h hh.symm), if_neg h]
        rw [if_neg (fun hh : kv.1 = q => h (hk ▸ hh.symm ▸ rfl))]
    · rw [if_neg hk]
      unfold fsGet
      by_cases h2 : kv.1 = q
      · rw [if_pos h2, if_pos h2]
        rw [if_neg (fun hh : q = p => hk (h2.trans hh))]
      · rw [if_neg h2, if_neg h2, ih]

theorem copyStep_fs_preserve (genreDir : List Str) (st : CopyState)
    (r : MatchResult) (p : List Str) (v : Nat) (h : fsGet st.fs p = some v) :
    fsGet (copyStep genreDir st r).fs p = some v := by
  unfold copyStep
  by_cases hd : fsGet st.fs (destOf genreDir r) = none
  · cases hs : fsGet st.fs r.rom_file.path with
    | none =>
      simp only [hd, hs, if_pos]
      exact h
    | some c =>
      simp only [hd, hs, if_pos]
      rw [fsGet_fsInsert]
      rw [if_neg (fun hh : p = destOf genreDir r => by rw [hh, hd] at h; cases h)]
      exact h
  · simp only [hd, if_neg]
    exact h

theorem copyFold_fs_preserve (genreDir : List Str) :
    ∀ (results : List MatchResult) (st : CopyState) (p : List Str) (v : Nat),
      fsGet st.fs p = some v →
      fsGet ((results.foldl (copyStep genreDir) st)).fs p = some v := by
  intro results
  induction results with
  | nil => intro st p v h; exact h
  | cons a t ih =>
    intro st p v h
    rw [List.foldl_cons]
    exact ih _ p v (copyStep_fs_preserve genreDir st a p v h)

theorem copyStep_dest_present (genreDir : List Str) (st : CopyState)
    (r : MatchResult) (hsrc : (fsGet st.fs r.rom_file.path).isSome = true) :
    (fsGet (copyStep genreDir st r).fs (destOf genreDir r)).isSome = true := by
  unfold copyStep
  by_cases hd : fsGet st.fs (destOf genreDir r) = none
  · cases hs : fsGet st.fs r.rom_file.path with
    | none => rw [hs] at hsrc; cases hsrc
    | some c =>
      simp only [hd, hs, if_pos]
      rw [fsGet_fsInsert, if_pos rfl]
      rfl
  · simp only [hd, if_neg]
    exact Option.isSome_iff_ne_none.mpr hd

theorem copyFold_dest_present (genreDir : List Str) :
    ∀ (results : List MatchResult) (st : CopyState),
      (∀ r ∈ results, (fsGet st.fs r.rom_file.path).isSome = true) →
      ∀ r ∈ results,
        (fsGet ((results.foldl (copyStep genreDir) st)).fs (destOf genreDir r)).isSome
          = true := by
  intro results
  induction results with
  | nil => intro st _ r hr; cases hr
  | cons a t ih =>
    intro st h r hr
    rw [List.foldl_cons]
    have hsrc_t : ∀ r2 ∈ t,
        (fsGet (copyStep genreDir st a).fs r2.rom_file.path).isSome = true := by
      intro r2 hr2
      rcases Option.isSome_iff_exists.mp (h r2 (List.mem_cons_of_mem _ hr2)) with ⟨v, hv⟩
      rw [copyStep_fs_preserve genreDir st a _ v hv]
      rfl
    rcases List.mem_cons.mp hr with rfl | hrt
    · have hstep := copyStep_dest_present genreDir st r (h r (List.mem_cons_self _ _))
      rcases Option.isSome_iff_exists.mp hstep with ⟨v, hv⟩
      rw [copyFold_fs_preserve genreDir t _ _ v hv]
      rfl
    · exact ih (copyStep genreDir st a) hsrc_t r hrt

theorem copyStep_skip (genreDir : List Str) (st : CopyState) (r : MatchResult)
    (hd : (fsGet st.fs (destOf genreDir r)).isSome = true) :
    (copyStep genreDir st r).fs = st.fs ∧ (copyStep genreDir st r).copies = st.copies := by
  unfold copyStep
  have hne : ¬ (fsGet st.fs (destOf genreDir r) = none) :=
    Option.isSome_iff_ne_none.mp hd
  simp only [hne, if_neg]
  exact ⟨rfl, rfl⟩

theorem copyFold_skip (genreDir : List Str) :
    ∀ (results : List MatchResult) (st : CopyState),
      (∀ r ∈ results, (fsGet st.fs (destOf genreDir r)).isSome = true) →
      ((results.foldl (copyStep genreDir) st)).fs = st.fs ∧
      ((results.foldl (copyStep genreDir) st)).copies = st.copies := by
  intro results
  induction results with
  | nil => intro st _; exact ⟨rfl, rfl⟩
  | cons a t ih =>
    intro st h
    rw [List.foldl_cons]
    rcases copyStep_skip genreDir st a (h a (List.mem_cons_self _ _)) with ⟨hf, hc⟩
    rcases ih (copyStep genreDir st a) (by
      intro r hr
      rw [hf]
      exact h r (List.mem_cons_of_mem _ hr)) with ⟨hf2, hc2⟩
    rw [hf2, hc2, hf, hc]
    exact ⟨rfl, rfl⟩

/-- Claim C3 (amended): provided every result's source file exists
beforehand, the Sequential Copier is idempotent — a second run on the
same result list and destination changes nothing and performs zero
copies — and a file that already exists is never overwritten.  (Without
the proviso a result whose missing source coincides with another
result's destination is copied only on the second run; see the
counterexample.) -/
theorem c3_copier_idempotent_amended (results : List MatchResult)
    (genreDir : List Str) (fs0 : Fs)
    (h : ∀ r ∈ results, (fsGet fs0 r.rom_file.path).isSome = true) :
    (copyRomsSequentially results genreDir
        (copyRomsSequentially results genreDir fs0).fs).fs =
      (copyRomsSequentially results genreDir fs0).fs ∧
    (copyRomsSequentially results genreDir
        (copyRomsSequentially results genreDir fs0).fs).copies = 0 ∧
    (∀ p v, fsGet fs0 p = some v →
      fsGet (copyRomsSequentially results genreDir fs0).fs p = some v) := by
  have hdest := copyFold_dest_present genreDir results
    (CopyState.mk (Stats.mk 0 0 []) [] [] fs0 0) h
  have hskip := copyFold_skip genreDir results
    (CopyState.mk (Stats.mk 0 0 [])
      [] [] (copyRomsSequentially results genreDir fs0).fs 0)
    (by
      intro r hr
      exact hdest r hr)
  refine ⟨hskip.1, hskip.2, ?_⟩
  intro p v hv
  exact copyFold_fs_preserve genreDir results _ p v hv

/-- Concrete data for the claim C3 counterexample: `c3r1`'s source path
is exactly `c3r2`'s destination path, and only `c3r2`'s source exists
initially. -/
def c3r2file : RomFile := RomFile.mk (strL "q") (strL "q.bin") [strL "src", strL "q.bin"]

def c3r1file : RomFile :=
  RomFile.mk (strL "p") (strL "p.bin") [strL "genre", strL "G", strL "q.bin"]

def c3results : List MatchResult :=
  [MatchResult.mk c3r1file false (strL "H") none (strL "Unknown"),
   MatchResult.mk c3r2file false (strL "G") none (strL "Unknown")]

def c3fs0 : Fs := [([strL "src", strL "q.bin"], 7)]

/-- Claim C3 counterexample: on `c3results` the first run copies one file
(the other copy fails, source missing); the second run on the same inputs
performs one more copy — the first result's source now exists, created as
the second result's destination — and the final directory contents
differ.  The unrestricted idempotence claim is false. -/
theorem c3_counterexample :
    (copyRomsSequentially c3results [strL "genre"]
        (copyRomsSequentially c3results [strL "genre"] c3fs0).fs).copies = 1 ∧
    (copyRomsSequentially c3results [strL "genre"]
        (copyRomsSequentially c3results [strL "genre"] c3fs0).fs).fs ≠
      (copyRomsSequentially c3results [strL "genre"] c3fs0).fs := by
  decide

/-- Concrete data for the claim C3 witness: one result whose source exists. -/
def c3wresults : List MatchResult :=
  [MatchResult.mk c3r2file false (strL "G") none (strL "Unknown")]

/-- Witness for claim C3 with an existing source file. -/
theorem c3_witness :
    (copyRomsSequentially c3wresults [strL "genre"]
        (copyRomsSequentially c3wresults [strL "genre"] c3fs0).fs).fs =
      (copyRomsSequentially c3wresults [strL "genre"] c3fs0).fs ∧
    (copyRomsSequentially c3wresults [strL "genre"]
        (copyRomsSequentially c3wresults [strL "genre"] c3fs0).fs).copies = 0 ∧
    (∀ p v, fsGet c3fs0 p = some v →
      fsGet (copyRomsSequentially c3wresults [strL "genre"] c3fs0).fs p = some v) :=
  c3_copier_idempotent_amended c3wresults [strL "genre"] c3fs0 (by decide)

/-- Claim C10: after the Sequential Copier processes any result list,
`matched + unmatched` equals the number of results, and the per-genre
counters also sum to the number of results (each result increments
exactly one of matched/unmatched and exactly one genre counter). -/
theorem c10_stats_invariant (results : List MatchResult) (genreDir : List Str)
    (fs0 : Fs) :
    (copyRomsSequentially results genreDir fs0).stats.matched +
      (copyRomsSequentially results genreDir fs0).stats.unmatched =
      results.length ∧
    sumCounts (copyRomsSequentially results genreDir fs0).stats.genres =
      results.length := by
  unfold copyRomsSequentially
  rcases copyFold_stats genreDir results (CopyState.mk (Stats.mk 0 0 []) [] [] fs0 0)
    with ⟨ha, hb⟩
  rw [ha, hb]
  exact ⟨by simp, by simp [sumCounts]⟩

/-- Claim C7: a catalog parse failure yields the empty index (empty
variant map, empty canonical-name list) instead of raising, and the
organize operation then aborts before the matching and copying phases. -/
theorem c7_parse_failure_aborts :
    enhancedXmlParsing none = ([], []) ∧
    ∀ (files : List RomFile) (workers : Nat) (fs0 : Fs),
      organizeRomsByGenre none files workers fs0 = none := by
  refine ⟨rfl, ?_⟩
  intro files workers fs0
  rfl

/-! ### Claim C9: every stored entry's original name is in the name list -/

theorem dictInsert_values (k : Str) (v : Entry) (d : MetaDict) (kv : Str × Entry)
    (h : kv ∈ dictInsert k v d) : kv = (k, v) ∨ kv ∈ d := by
  induction d with
  | nil => exact Or.inl (List.mem_singleton.mp h)
  | cons kv2 rest ih =>
    unfold dictInsert at h
    by_cases h2 : kv2.1 = k
    · rw [if_pos h2] at h
      rcases List.mem_cons.mp h with rfl | hm
      · exact Or.inl rfl
      · exact Or.inr (List.mem_cons_of_mem _ hm)
    · rw [if_neg h2] at h
      rcases List.mem_cons.mp h with rfl | hm
      · exact Or.inr (List.mem_cons_self _ _)
      · rcases ih hm with h3 | h3
        · exact Or.inl h3
        · exact Or.inr (List.mem_cons_of_mem _ h3)

theorem storeVariations_values (name cb genre fullG : Str) (md : MetaDict)
    (vars : List Str) (kv : Str × Entry)
    (h : kv ∈ storeVariations name cb genre fullG md vars) :
    kv.2.original_name = name ∨ kv ∈ md := by
  unfold storeVariations at h
  generalize vars.take 50 = vs at h
  induction vs generalizing md with
  | nil => exact Or.inr h
  | cons x t ih =>
    rw [List.foldl_cons] at h
    rcases ih _ h with h1 | h1
    · exact Or.inl h1
    · by_cases hc : x ≠ [] ∧ 1 < (pyStrip x).length
      · rw [if_pos hc] at h1
        rcases dictInsert_values _ _ _ _ h1 with rfl | h2
        · exact Or.inl rfl
        · exact Or.inr h2
      · rw [if_neg hc] at h1
        exact Or.inr h1

theorem parse_invariant :
    ∀ (games : List XmlGame) (st : MetaDict × List Str),
      (∀ kv ∈ st.1, kv.2.original_name ∈ st.2) →
      ∀ kv ∈ (games.foldl processGame st).1,
        kv.2.original_name ∈ (games.foldl processGame st).2 := by
  intro games
  induction games with
  | nil => intro st h; exact h
  | cons g gs ih =>
    intro st h
    rw [List.foldl_cons]
    apply ih
    intro kv hkv
    unfold processGame at hkv ⊢
    cases hg : gameName g with
    | none =>
      simp only [hg] at hkv ⊢
      exact h kv hkv
    | some n0 =>
      simp only [hg] at hkv ⊢
      by_cases hn : n0 = []
      · rw [if_pos hn] at hkv ⊢
        exact h kv hkv
      · rw [if_neg hn] at hkv ⊢
        dsimp only at hkv ⊢
        rcases storeVariations_values _ _ _ _ _ _ kv hkv with h1 | h1
        · rw [h1]
          exact List.mem_append_right _ (List.mem_singleton.mpr rfl)
        · exact List.mem_append_left _ (h kv h1)

/-- Claim C9: every value stored in the variant map (`rom_metadata`) has
an `original_name` that appears in the canonical-name list
(`xml_name_list`). -/
theorem c9_index_invariant (doc : Option (List XmlGame)) :
    ∀ kv ∈ (enhancedXmlParsing doc).1,
      kv.2.original_name ∈ (enhancedXmlParsing doc).2 := by
  cases doc with
  | none => intro kv hkv; cases hkv
  | some games =>
    exact parse_invariant games ([], []) (by intro kv hkv; cases hkv)

/-- A one-game document for the claim C9 witness. -/
def c9doc : List XmlGame := [XmlGame.mk (some (strL "ab")) none none]

def c9entry : Entry :=
  Entry.mk (strL "ab") (strL "ab") (strL "Unknown") (strL "Unknown")

/-- Witness for claim C9: the entry stored under the variant `"ab"` has
its original name in the canonical-name list. -/
theorem c9_witness :
    (strL "ab", c9entry) ∈ (enhancedXmlParsing (some c9doc)).1 ∧
    c9entry.original_name ∈ (enhancedXmlParsing (some c9doc)).2 :=
  ⟨by decide, c9_index_invariant (some c9doc) (strL "ab", c9entry) (by decide)⟩

/-! ### Claim C6: genre extraction and the Sonic example -/

/-- The single-record catalog of the claim C6 example. -/
def sonicDoc : List XmlGame :=
  [XmlGame.mk none (some (strL "Sonic the Hedgehog (USA)"))
    (some (strL "Action/Platformer"))]

/-- Claim C6: the loader defaults the genre to `"Unknown"` for an absent
or empty genre field, otherwise keeps the first slash-separated segment
(stripped) while `full_genre` keeps the whole (stripped) field; on the
one-entry Sonic catalog, matching the ROM stem `"Sonic the Hedgehog"`
returns genre `"Action"` and `full_genre` `"Action/Platformer"`. -/
theorem c6_genre_extraction :
    extractGenre none = strL "Unknown" ∧
    extractGenre (some []) = strL "Unknown" ∧
    (∀ t : Str, pyStrip t = t → t ≠ [] →
      extractFullGenre (some t) = t ∧
      (containsChar '/' t = true →
        extractGenre (some t) = pyStrip (t.takeWhile (fun c => c ≠ '/'))) ∧
      (containsChar '/' t = false → extractGenre (some t) = t)) ∧
    (hyperMatch (strL "Sonic the Hedgehog") (enhancedXmlParsing (some sonicDoc)).1
        (enhancedXmlParsing (some sonicDoc)).2).map
      (fun e => (e.genre, e.full_genre)) =
      some (strL "Action", strL "Action/Platformer") := by
  refine ⟨rfl, rfl, ?_, ?_⟩
  · intro t ht hne
    refine ⟨?_, ?_, ?_⟩
    · show (if t ≠ [] then pyStrip t else extractGenre (some t)) = t
      rw [if_pos hne, ht]
    · intro hc
      simp only [extractGenre]
      rw [if_pos hne, ht, if_pos hc]
    · intro hc
      simp only [extractGenre]
      rw [if_pos hne, ht, hc]
      rw [if_neg Bool.false_ne_true]
  · decide

/-- Witness for claim C6 at the concrete genre field `"Action/Platformer"`. -/
theorem c6_witness :
    extractFullGenre (some (strL "Action/Platformer")) = strL "Action/Platformer" ∧
    extractGenre (some (strL "Action/Platformer")) =
      pyStrip ((strL "Action/Platformer").takeWhile (fun c => c ≠ '/')) := by
  have h := c6_genre_extraction.2.2.1 (strL "Action/Platformer") (by decide) (by decide)
  exact ⟨h.1, h.2.1 (by decide)⟩

/-! ### Claim C5: the substring strategy -/

theorem findSome?_eq_some_ex {α β : Type} {f : α → Option β} {l : List α} {b : β}
    (h : l.findSome? f = some b) : ∃ a ∈ l, f a = some b := by
  induction l with
  | nil => cases h
  | cons x t ih =>
    rw [List.findSome?_cons] at h
    cases hf : f x with
    | some c =>
      rw [hf] at h
      cases h
      exact ⟨x, List.mem_cons_self _ _, hf⟩
    | none =>
      rw [hf] at h
      rcases ih h with ⟨a, ha, hfa⟩
      exact ⟨a, List.mem_cons_of_mem _ ha, hfa⟩

theorem findSome?_isSome_iff {α β : Type} {f : α → Option β} {l : List α} :
    (l.findSome? f).isSome = true ↔ ∃ a ∈ l, (f a).isSome = true := by
  induction l with
  | nil => simp [List.findSome?_nil]
  | cons x t ih =>
    rw [List.findSome?_cons]
    cases hf : f x with
    | some c =>
      constructor
      · intro _
        exact ⟨x, List.mem_cons_self _ _, by rw [hf]; rfl⟩
      · intro _
        rfl
    | none =>
      constructor
      · intro h
        rcases ih.mp h with ⟨a, ha, h2⟩
        exact ⟨a, List.mem_cons_of_mem _ ha, h2⟩
      · rintro ⟨a, ha, h2⟩
        rcases List.mem_cons.mp ha with rfl | hat
        · rw [hf] at h2
          cases h2
        · exact ih.mpr ⟨a, hat, h2⟩

/-- Claim C5: the Matcher's substring strategy runs only for ROM stems of
length at most 12, considers only variations of length at least 4, and
accepts a catalog key exactly when the lowercased variation is a
substring of the lowercased key and the variation's length is at least
60% of the key's length; in particular every returned entry comes from an
accepting pair, so no substring match is returned below the 0.6 ratio. -/
theorem c5_substring_strategy (romName : Str) (romVars : List Str) (md : MetaDict) :
    (12 < romName.length → stage3 romName romVars md = none) ∧
    ((stage3 romName romVars md).isSome = true ↔
      (romName.length ≤ 12 ∧ ∃ v ∈ romVars, 4 ≤ v.length ∧
        ∃ kv ∈ md, hasSub (lowerS v) (lowerS kv.1) = true ∧
          6 * kv.1.length ≤ 10 * v.length)) ∧
    (∀ e, stage3 romName romVars md = some e →
      ∃ v ∈ romVars, 4 ≤ v.length ∧ ∃ kv ∈ md, kv.2 = e ∧
        hasSub (lowerS v) (lowerS kv.1) = true ∧
          6 * kv.1.length ≤ 10 * v.length) := by
  have hsub : ∀ v k : Str, substrAcceptB v k = true ↔
      (hasSub (lowerS v) (lowerS k) = true ∧ 6 * k.length ≤ 10 * v.length) := by
    intro v k
    unfold substrAcceptB
    rw [Bool.and_eq_true, decide_eq_true_eq, lowerS_length, lowerS_length]
  refine ⟨?_, ?_, ?_⟩
  · intro h
    unfold stage3
    rw [if_neg (by omega)]
  · unfold stage3
    by_cases hlen : romName.length ≤ 12
    · rw [if_pos hlen]
      constructor
      · intro h
        rcases findSome?_isSome_iff.mp h with ⟨v, hv, h2⟩
        refine ⟨hlen, v, hv, ?_⟩
        by_cases h4 : 4 ≤ (lowerS v).length
        · rw [if_pos h4] at h2
          rcases findSome?_isSome_iff.mp h2 with ⟨kv, hkv, h3⟩
          by_cases hacc : substrAcceptB v kv.1 = true
          · rcases (hsub v kv.1).mp hacc with ⟨hs, hr⟩
            rw [lowerS_length] at h4
            exact ⟨h4, kv, hkv, hs, hr⟩
          · rw [if_neg hacc] at h3
            cases h3
        · rw [if_neg h4] at h2
          cases h2
      · rintro ⟨_, v, hv, h4, kv, hkv, hs, hr⟩
        apply findSome?_isSome_iff.mpr
        refine ⟨v, hv, ?_⟩
        rw [if_pos (by rw [lowerS_length]; exact h4)]
        apply findSome?_isSome_iff.mpr
        refine ⟨kv, hkv, ?_⟩
        rw [if_pos ((hsub v kv.1).mpr ⟨hs, hr⟩)]
        rfl
    · rw [if_neg hlen]
      constructor
      · intro h
        cases h
      · rintro ⟨h12, _⟩
        exact absurd h12 hlen
  · intro e h
    unfold stage3 at h
    by_cases hlen : romName.length ≤ 12
    · rw [if_pos hlen] at h
      rcases findSome?_eq_some_ex h with ⟨v, hv, h2⟩
      by_cases h4 : 4 ≤ (lowerS v).length
      · rw [if_pos h4] at h2
        rcases findSome?_eq_some_ex h2 with ⟨kv, hkv, h3⟩
        by_cases hacc : substrAcceptB v kv.1 = true
        · rw [if_pos hacc] at h3
          cases h3
          rcases (hsub v kv.1).mp hacc with ⟨hs, hr⟩
          rw [lowerS_length] at h4
          exact ⟨v, hv, h4, kv, hkv, rfl, hs, hr⟩
        · rw [if_neg hacc] at h3
          cases h3
      · rw [if_neg h4] at h2
        cases h2
    · rw [if_neg hlen] at h
      cases h

def c5entry : Entry := Entry.mk (strL "x") (strL "x") (strL "g") (strL "g")

def c5md : MetaDict := [(strL "Zelda II", c5entry)]

/-- Witness for claim C5: the variation `"Zelda"` (length 5) against the
catalog key `"Zelda II"` (length 8, ratio 5/8 ≥ 0.6) is accepted. -/
theorem c5_witness :
    (stage3 (strL "Zelda") [strL "Zelda"] c5md).isSome = true ∧
    (12 < (strL "Zelda").length → stage3 (strL "Zelda") [strL "Zelda"] c5md = none) := by
  refine ⟨?_, (c5_substring_strategy (strL "Zelda") [strL "Zelda"] c5md).1⟩
  apply (c5_substring_strategy (strL "Zelda") [strL "Zelda"] c5md).2.1.mpr
  exact ⟨by decide, strL "Zelda", by decide, by decide,
    (strL "Zelda II", c5entry), by decide, by decide, by decide⟩

/-! ### Claim C8: the clean_genre sanitization -/

theorem pyStrip_sublist (s : Str) : (pyStrip s).Sublist s := by
  unfold pyStrip
  have h1 : (s.dropWhile isWsChar).Sublist s := List.dropWhile_sublist _
  have h2 : ((s.dropWhile isWsChar).reverse.dropWhile isWsChar).Sublist
      (s.dropWhile isWsChar).reverse := List.dropWhile_sublist _
  have h3 := h2.reverse
  rw [List.reverse_reverse] at h3
  exact h3.trans h1

theorem cleanFilename_none_sublist (g : Str) : (cleanFilename g none).Sublist g :=
  (pyStrip_sublist _).trans ((List.filter_sublist _).trans (List.filter_sublist _))

/-- Claim C8 (amended): `clean_genre` is `result.genre` sanitized by
`clean_filename`, which removes not only the characters illegal in path
components but every character outside word characters, whitespace,
hyphen, underscore and dot, then trims surrounding whitespace; it
defaults to `"Unknown"` exactly when that leaves nothing, and the file is
placed under the subfolder named `clean_genre`. -/
theorem c8_clean_genre_amended (g : Str) :
    (cleanFilename g none = [] → cleanGenreOf g = strL "Unknown") ∧
    (cleanFilename g none ≠ [] → cleanGenreOf g = cleanFilename g none) ∧
    (cleanFilename g none).Sublist g ∧
    (∀ c ∈ cleanFilename g none, c ∉ illegalChars ∧
      (isWordChar c || isWsChar c || c = '-' || c = '_' || c = '.') = true) ∧
    (∀ (st : CopyState) (r : MatchResult) (genreDir : List Str) (content : Nat),
      fsGet st.fs (destOf genreDir r) = none →
      fsGet st.fs r.rom_file.path = some content →
      fsGet (copyStep genreDir st r).fs
        (genreDir ++ [cleanGenreOf r.genre, destNameOf r.rom_file.name]) =
        some content) := by
  refine ⟨?_, ?_, cleanFilename_none_sublist g, ?_, ?_⟩
  · intro h
    simp only [cleanGenreOf]
    rw [if_pos h]
  · intro h
    simp only [cleanGenreOf]
    rw [if_neg h]
  · intro c hc
    have hc2 : c ∈ (g.filter (fun c => ¬ (c ∈ illegalChars))).filter
        (fun c => isWordChar c || isWsChar c || c = '-' || c = '_' || c = '.') :=
      (pyStrip_sublist _).subset hc
    rcases List.mem_filter.mp hc2 with ⟨hc1, hp2⟩
    rcases List.mem_filter.mp hc1 with ⟨_, hp1⟩
    constructor
    · simpa using hp1
    · exact hp2
  · intro st r genreDir content hd hs
    unfold copyStep
    simp only [hd, hs, if_pos]
    rw [show genreDir ++ [cleanGenreOf r.genre, destNameOf r.rom_file.name] =
      destOf genreDir r from rfl]
    rw [fsGet_fsInsert, if_pos rfl]

/-- The genre string of the claim C8 counterexample (an apostrophe is a
legal path character). -/
def c8genre : Str := strL "Beat" ++ [aposChar] ++ strL "em up"

/-- Claim C8 counterexample: for the genre `"Beat'em up"` the code
produces `"Beatem up"`, while stripping only the characters illegal in
path components would leave the string unchanged — `clean_filename`
deletes legal characters too, so the claim's characterization fails. -/
theorem c8_counterexample :
    cleanFilename c8genre none = strL "Beatem up" ∧
    sanitizeIllegalOnly c8genre = c8genre ∧
    cleanFilename c8genre none ≠ sanitizeIllegalOnly c8genre := by
  decide

/-- Witness for claim C8 at the concrete genre `"Beat'em up"`. -/
theorem c8_witness :
    cleanGenreOf c8genre = cleanFilename c8genre none ∧
    (cleanFilename c8genre none).Sublist c8genre :=
  ⟨(c8_clean_genre_amended c8genre).2.1 (by decide),
   (c8_clean_genre_amended c8genre).2.2.1⟩
